import Mathlib

/-!
Verification development for the LogSplitter repository (src/main.py),
a bounded in-memory MapReduce-style pipeline: it partitions a total record
count across workers, each worker generates synthetic log lines and counts
source addresses and status codes via a compiled regular expression, and
the partial tallies are folded into one aggregate that is then reported.

Strings are modelled as lists of characters.  Python dictionaries
(`defaultdict(int)`) are modelled as insertion-ordered association lists,
which is faithful to Python's guaranteed dict iteration order: a new key is
appended at the end, an existing key is updated in place.
-/

set_option maxHeartbeats 1000000

abbrev Str := List Char

/-! ## Configuration (module-level constants of main.py) -/

/-- `LOG_SIZE = 5_000_000` from main.py. -/
def LOG_SIZE : Nat := 5000000

/-- `CHUNK_SIZE = LOG_SIZE // NUM_WORKERS` from main.py, parameterized by the
two configuration values (`NUM_WORKERS` comes from `cpu_count()` at run time,
so it is kept as a parameter). -/
def CHUNK_SIZE (logSize numWorkers : Nat) : Nat := logSize / numWorkers

/-- `chunk_sizes = [CHUNK_SIZE] * NUM_WORKERS` from `run_map_reduce_job`:
the partition plan handed to the worker pool. -/
def chunk_sizes (logSize numWorkers : Nat) : List Nat :=
  List.replicate numWorkers (CHUNK_SIZE logSize numWorkers)

/-- `IPS = [f"192.168.1.{i}" for i in range(1, 50)]` from main.py. -/
def IPS : List Str :=
  (List.range' 1 49).map (fun i => ("192.168.1." ++ toString i).toList)

/-- `STATUS_CODES = [200] * 10 + [404, 500, 301]` from main.py. -/
def STATUS_CODES : List Nat := List.replicate 10 200 ++ [404, 500, 301]

/-- `weighted_ips = IPS + ['10.0.0.1'] * 10` computed inside `mapper_function`. -/
def weighted_ips : List Str := IPS ++ List.replicate 10 ("10.0.0.1".toList)

/-! ## The compiled pattern of `get_log_pattern`

The source compiles (once per worker, via `lru_cache`) the regular expression
`(\d{1,3}\.\d{1,3}\.\d{1,3}\.\d{1,3}).*STATUS:(\d+)` and runs `.search` on
each line.  The functions below embed that specific pattern with Python's
`re` semantics: leftmost match start, greedy quantifiers with backtracking,
`.` not matching a newline.  Since a maximal run of `\d{1,3}` followed by a
forced `\.` leaves no successful shorter alternative (the following character
is a digit in every shorter alternative), each octet match is deterministic;
greedy `.*` takes the last position where `STATUS:` followed by at least one
digit occurs. -/

/-- Number of leading decimal-digit characters. -/
def leadingDigits : Str → Nat
  | [] => 0
  | c :: r => if c.isDigit then leadingDigits r + 1 else 0

/-- Match `\d{1,3}\.` at the front: one to three digits followed by a literal
dot.  Returns the digit run and the remainder after the dot. -/
def matchOctetDot (s : Str) : Option (Str × Str) :=
  if 1 ≤ leadingDigits s ∧ leadingDigits s ≤ 3 ∧ (s.drop (leadingDigits s)).head? = some '.' then
    some (s.take (leadingDigits s), s.drop (leadingDigits s + 1))
  else none

/-- Match the final `\d{1,3}` of the quad greedily: at least one digit, take
at most three. -/
def matchLastOctet (s : Str) : Option (Str × Str) :=
  if 1 ≤ leadingDigits s then
    some (s.take (min 3 (leadingDigits s)), s.drop (min 3 (leadingDigits s)))
  else none

/-- Match group 1, `\d{1,3}\.\d{1,3}\.\d{1,3}\.\d{1,3}`, at the front of the
string.  Returns the matched text and the remainder. -/
def matchQuad (s : Str) : Option (Str × Str) :=
  (matchOctetDot s).bind fun p1 =>
    (matchOctetDot p1.2).bind fun p2 =>
      (matchOctetDot p2.2).bind fun p3 =>
        (matchLastOctet p3.2).map fun p4 =>
          (p1.1 ++ '.' :: (p2.1 ++ '.' :: (p3.1 ++ '.' :: p4.1)), p4.2)

/-- The literal marker `STATUS:` of the pattern. -/
def statusMarker : Str := "STATUS:".toList

/-- Match `STATUS:(\d+)` at the front of the string: the literal marker
followed by a greedy non-empty digit run (group 2). -/
def statusAt (s : Str) : Option Str :=
  if statusMarker.isPrefixOf s then
    if 1 ≤ leadingDigits (s.drop 7) then
      some ((s.drop 7).take (leadingDigits (s.drop 7)))
    else none
  else none

/-- Match `.*STATUS:(\d+)` at the front of the string and return group 2.
Greedy `.*` consumes as much as possible and backtracks, so the match chosen
is the last position where `STATUS:` plus at least one digit occurs; `.`
does not match a newline, so positions past a newline are unreachable. -/
def findLastStatus : Str → Option Str
  | [] => none
  | c :: r =>
    if c = '\n' then statusAt (c :: r)
    else (findLastStatus r).orElse (fun _ => statusAt (c :: r))

/-- Match the whole pattern anchored at the front of the string, returning
(group 1, group 2). -/
def patternAt (s : Str) : Option (Str × Str) :=
  (matchQuad s).bind fun p =>
    (findLastStatus p.2).map fun code => (p.1, code)

/-- `get_log_pattern().search(line)` with the two captured groups: try the
pattern at each start position from the left, return the first success. -/
def searchPattern : Str → Option (Str × Str)
  | [] => none
  | c :: r => (patternAt (c :: r)).orElse (fun _ => searchPattern r)

/-! ## The generator `generate_log_line`

`f"{timestamp:.6f} - INFO - {ip} - REQUEST:GET /api/v1/data - STATUS:{code}"`
with `timestamp = time.time()` formatted as a non-empty integer digit run,
a dot, and exactly six fractional digits; `ip` drawn from `weighted_ips`;
`code` drawn from `STATUS_CODES`. -/

/-- The literal segment between the timestamp and the source address. -/
def litInfo : Str := " - INFO - ".toList

/-- The literal segment between the source address and the status digits.
It ends with the `STATUS:` marker. -/
def litReq : Str := " - REQUEST:GET /api/v1/data - STATUS:".toList

/-- Decimal text of a status code, as produced by the f-string. -/
def codeStr (n : Nat) : Str := (toString n).toList

/-- One random draw consumed by `generate_log_line`: the formatted
`time.time()` timestamp (integer digits and six fractional digits) and the
two `random.choice` results. -/
structure Draw where
  tsInt : Str
  tsFrac : Str
  ip : Str
  code : Nat
deriving Repr

/-- `generate_log_line`: the f-string assembled from one draw. -/
def generate_log_line (d : Draw) : Str :=
  d.tsInt ++ '.' :: d.tsFrac ++ litInfo ++ d.ip ++ litReq ++ codeStr d.code

/-- A draw the generator can actually produce: timestamp parts shaped by the
`:.6f` format, address from the worker's weighted pool, code from the status
pool. -/
abbrev GoodDraw (d : Draw) : Prop :=
  d.tsInt.all Char.isDigit = true ∧ d.tsInt ≠ [] ∧
  d.tsFrac.all Char.isDigit = true ∧ d.tsFrac.length = 6 ∧
  d.ip ∈ weighted_ips ∧ d.code ∈ STATUS_CODES

/-! ## Frequency tables

`defaultdict(int)` with `d[k] += c` as an insertion-ordered association
list: update in place when the key exists, append otherwise. -/

/-- A Python `defaultdict(int)` keyed by strings. -/
abbrev Counts := List (Str × Nat)

/-- `d[k] += c` on a `defaultdict(int)`. -/
def updAdd (l : Counts) (k : Str) (c : Nat) : Counts :=
  match l with
  | [] => [(k, c)]
  | (k', v) :: rest => if k' = k then (k', v + c) :: rest else (k', v) :: updAdd rest k c

/-- `d.get(k, 0)` (also the value read by `d[k] += 1`). -/
def lookupD (l : Counts) (k : Str) : Nat :=
  match l with
  | [] => 0
  | (k', v) :: rest => if k' = k then v else lookupD rest k

/-- `sum(d.values())`. -/
def sumCounts (l : Counts) : Nat := (l.map (fun p => p.2)).sum

/-- Total of the values stored for key `k` (equal to `lookupD` when keys are
unique, but well-behaved on any association list). -/
def valSum : Counts → Str → Nat
  | [], _ => 0
  | (k', v) :: rest, k => (if k' = k then v else 0) + valSum rest k

/-- The `{'ips': ..., 'codes': ...}` record returned by a worker (and also
the shape of the reduce accumulator). -/
structure PartialCounts where
  ips : Counts
  codes : Counts
deriving DecidableEq, Repr

/-- Processing step of the mapper loop body: search one line, on a match
increment both local tables, on no match skip. -/
def mapStep (acc : PartialCounts) (line : Str) : PartialCounts :=
  match searchPattern line with
  | some (ip, code) => ⟨updAdd acc.ips ip 1, updAdd acc.codes code 1⟩
  | none => acc

/-- The mapper's loop over a list of already-generated lines. -/
def processLines (lines : List Str) : PartialCounts :=
  lines.foldl mapStep ⟨[], []⟩

/-- `mapper_function(chunk_size)`: generate `chunk_size` lines (randomness
supplied as a stream of draws) and fold them into the two local tables. -/
def mapper_function (chunk_size : Nat) (draws : Nat → Draw) : PartialCounts :=
  processLines (((List.range chunk_size).map draws).map generate_log_line)

/-- `reducer_function`: add every entry of the new partial result into the
accumulator, in the new result's iteration order. -/
def addAll (acc new : Counts) : Counts :=
  new.foldl (fun a kv => updAdd a kv.1 kv.2) acc

/-- `reducer_function(accumulated_result, new_result)` from main.py. -/
def reducer_function (acc new : PartialCounts) : PartialCounts :=
  ⟨addAll acc.ips new.ips, addAll acc.codes new.codes⟩

/-- `initial_state = {'ips': defaultdict(int), 'codes': defaultdict(int)}`. -/
def initial_state : PartialCounts := ⟨[], []⟩

/-- `final_result = reduce(reducer_function, mapped_results, initial_state)`. -/
def final_result (mapped : List PartialCounts) : PartialCounts :=
  mapped.foldl reducer_function initial_state

/-! ## The reporter section of `run_map_reduce_job` -/

/-- Insert one entry into a list sorted by descending count, after every
entry with a strictly larger count and before ties: the placement a stable
descending sort gives to a later element. -/
def insDesc (x : Str × Nat) : Counts → Counts
  | [] => [x]
  | y :: ys => if x.2 < y.2 then y :: insDesc x ys else x :: y :: ys

/-- `sorted(items, key=lambda x: x[1], reverse=True)`: Python's `sorted` is
stable, and a stable sort's output is uniquely determined by the key order
and the input order, so this stable insertion sort computes the same list. -/
def sortDesc : Counts → Counts
  | [] => []
  | x :: xs => insDesc x (sortDesc xs)

/-- `sorted_ips = sorted(final_result['ips'].items(), ...)[:3]`. -/
def top3 (l : Counts) : Counts := (sortDesc l).take 3

/-- `total_requests = sum(final_result['codes'].values())`. -/
def total_requests (r : PartialCounts) : Nat := sumCounts r.codes

/-- `error_500 = final_result['codes'].get('500', 0)`. -/
def error_500 (r : PartialCounts) : Nat := lookupD r.codes ("500".toList)

/-- `error_rate = (error_500 / total_requests) * 100 if total_requests else 0`,
with real division modelled in `ℚ`. -/
def error_rate (r : PartialCounts) : ℚ :=
  if total_requests r = 0 then 0
  else ((error_500 r : ℚ) / (total_requests r : ℚ)) * 100

/-! ## Lemmas about the frequency tables -/

theorem sumCounts_nil : sumCounts [] = 0 := rfl

theorem sumCounts_cons (p : Str × Nat) (rest : Counts) :
    sumCounts (p :: rest) = p.2 + sumCounts rest := by
  simp [sumCounts]

theorem sumCounts_updAdd (l : Counts) (k : Str) (c : Nat) :
    sumCounts (updAdd l k c) = sumCounts l + c := by
  induction l with
  | nil => simp [updAdd, sumCounts]
  | cons p rest ih =>
    obtain ⟨k', v⟩ := p
    by_cases h : k' = k
    · simp [updAdd, h, sumCounts_cons]
      omega
    · simp [updAdd, h, sumCounts_cons, ih]
      omega

theorem lookupD_updAdd (l : Counts) (k : Str) (c : Nat) (k2 : Str) :
    lookupD (updAdd l k c) k2 = lookupD l k2 + (if k = k2 then c else 0) := by
  induction l with
  | nil =>
    by_cases h : k = k2 <;> simp [updAdd, lookupD, h]
  | cons p rest ih =>
    obtain ⟨k', v⟩ := p
    by_cases h : k' = k
    · subst h
      by_cases h2 : k' = k2 <;> simp [updAdd, lookupD, h2]
    · by_cases h2 : k' = k2
      · subst h2
        simp [updAdd, h, lookupD]
        intro hh
        exact absurd hh.symm h
      · simp [updAdd, h, lookupD, h2, ih]

theorem sumCounts_addAll (a b : Counts) :
    sumCounts (addAll a b) = sumCounts a + sumCounts b := by
  induction b generalizing a with
  | nil => simp [addAll, sumCounts]
  | cons p rest ih =>
    obtain ⟨k, c⟩ := p
    show sumCounts (addAll (updAdd a k c) rest) = _
    rw [ih, sumCounts_updAdd, sumCounts_cons]
    omega

theorem lookupD_addAll (a b : Counts) (k : Str) :
    lookupD (addAll a b) k = lookupD a k + valSum b k := by
  induction b generalizing a with
  | nil => simp [addAll, valSum]
  | cons p rest ih =>
    obtain ⟨k', c⟩ := p
    show lookupD (addAll (updAdd a k' c) rest) k = _
    rw [ih, lookupD_updAdd]
    simp [valSum]
    omega

/-! ## Lemmas about the map stage -/

theorem foldl_mapStep_sums (lines : List Str) (acc : PartialCounts) :
    sumCounts (lines.foldl mapStep acc).ips
      = sumCounts acc.ips + lines.countP (fun l => (searchPattern l).isSome) ∧
    sumCounts (lines.foldl mapStep acc).codes
      = sumCounts acc.codes + lines.countP (fun l => (searchPattern l).isSome) := by
  induction lines generalizing acc with
  | nil => simp
  | cons line rest ih =>
    have hstep : (mapStep acc line).ips = acc.ips ∧ (mapStep acc line).codes = acc.codes ∧
        (searchPattern line).isSome = false ∨
        ∃ ip code, searchPattern line = some (ip, code) ∧
          (mapStep acc line).ips = updAdd acc.ips ip 1 ∧
          (mapStep acc line).codes = updAdd acc.codes code 1 := by
      cases h : searchPattern line with
      | none => exact Or.inl ⟨by simp [mapStep, h], by simp [mapStep, h], by simp [h]⟩
      | some g => exact Or.inr ⟨g.1, g.2, by simp [h], by simp [mapStep, h], by simp [mapStep, h]⟩
    rcases hstep with ⟨h1, h2, h3⟩ | ⟨ip, code, hs, h1, h2⟩
    · obtain ⟨ih1, ih2⟩ := ih (mapStep acc line)
      constructor
      · rw [List.foldl_cons, ih1, h1, List.countP_cons, h3]
        simp
      · rw [List.foldl_cons, ih2, h2, List.countP_cons, h3]
        simp
    · obtain ⟨ih1, ih2⟩ := ih (mapStep acc line)
      constructor
      · rw [List.foldl_cons, ih1, h1, sumCounts_updAdd, List.countP_cons]
        simp [hs]
        omega
      · rw [List.foldl_cons, ih2, h2, sumCounts_updAdd, List.countP_cons]
        simp [hs]
        omega

theorem processLines_sums (lines : List Str) :
    sumCounts (processLines lines).ips = lines.countP (fun l => (searchPattern l).isSome) ∧
    sumCounts (processLines lines).codes = lines.countP (fun l => (searchPattern l).isSome) := by
  have h := foldl_mapStep_sums lines ⟨[], []⟩
  simpa [processLines, sumCounts] using h

/-! ## Lemmas about the reduce stage -/

theorem final_result_sums (ps : List PartialCounts) :
    sumCounts (final_result ps).ips = (ps.map (fun p => sumCounts p.ips)).sum ∧
    sumCounts (final_result ps).codes = (ps.map (fun p => sumCounts p.codes)).sum := by
  suffices h : ∀ acc : PartialCounts,
      sumCounts (ps.foldl reducer_function acc).ips
        = sumCounts acc.ips + (ps.map (fun p => sumCounts p.ips)).sum ∧
      sumCounts (ps.foldl reducer_function acc).codes
        = sumCounts acc.codes + (ps.map (fun p => sumCounts p.codes)).sum by
    have := h initial_state
    simpa [final_result, initial_state, sumCounts] using this
  induction ps with
  | nil => simp
  | cons p rest ih =>
    intro acc
    obtain ⟨ih1, ih2⟩ := ih (reducer_function acc p)
    constructor
    · rw [List.foldl_cons, ih1]
      show sumCounts (addAll acc.ips p.ips) + _ = _
      rw [sumCounts_addAll]
      simp
      omega
    · rw [List.foldl_cons, ih2]
      show sumCounts (addAll acc.codes p.codes) + _ = _
      rw [sumCounts_addAll]
      simp
      omega

theorem lookupD_final_result (ps : List PartialCounts) (k : Str) :
    lookupD (final_result ps).ips k = (ps.map (fun p => valSum p.ips k)).sum ∧
    lookupD (final_result ps).codes k = (ps.map (fun p => valSum p.codes k)).sum := by
  suffices h : ∀ acc : PartialCounts,
      lookupD (ps.foldl reducer_function acc).ips k
        = lookupD acc.ips k + (ps.map (fun p => valSum p.ips k)).sum ∧
      lookupD (ps.foldl reducer_function acc).codes k
        = lookupD acc.codes k + (ps.map (fun p => valSum p.codes k)).sum by
    have := h initial_state
    simpa [final_result, initial_state, lookupD] using this
  induction ps with
  | nil => simp
  | cons p rest ih =>
    intro acc
    obtain ⟨ih1, ih2⟩ := ih (reducer_function acc p)
    constructor
    · rw [List.foldl_cons, ih1]
      show lookupD (addAll acc.ips p.ips) k + _ = _
      rw [lookupD_addAll]
      simp
      omega
    · rw [List.foldl_cons, ih2]
      show lookupD (addAll acc.codes p.codes) k + _ = _
      rw [lookupD_addAll]
      simp
      omega

/-! ## Lemmas about the reporter's sort -/

theorem insDesc_perm (x : Str × Nat) (s : Counts) : (insDesc x s).Perm (x :: s) := by
  induction s with
  | nil => exact List.Perm.refl _
  | cons y ys ih =>
    by_cases h : x.2 < y.2
    · simp only [insDesc, if_pos h]
      exact (ih.cons y).trans (List.Perm.swap x y ys)
    · simp only [insDesc, if_neg h]
      exact List.Perm.refl _

theorem sortDesc_perm (l : Counts) : (sortDesc l).Perm l := by
  induction l with
  | nil => exact List.Perm.refl _
  | cons x xs ih =>
    exact (insDesc_perm x (sortDesc xs)).trans (ih.cons x)

theorem mem_insDesc (z x : Str × Nat) (s : Counts) (h : z ∈ insDesc x s) :
    z = x ∨ z ∈ s := by
  have := (insDesc_perm x s).mem_iff.mp h
  simpa using this

theorem pairwise_insDesc (x : Str × Nat) (s : Counts)
    (h : List.Pairwise (fun a b => b.2 ≤ a.2) s) :
    List.Pairwise (fun a b => b.2 ≤ a.2) (insDesc x s) := by
  induction s with
  | nil => simp [insDesc]
  | cons y ys ih =>
    rcases h with _ | ⟨hy, hys⟩
    by_cases hxy : x.2 < y.2
    · simp only [insDesc, if_pos hxy]
      refine List.Pairwise.cons ?_ (ih hys)
      intro z hz
      rcases mem_insDesc z x ys hz with rfl | hz'
      · exact Nat.le_of_lt hxy
      · exact hy z hz'
    · simp only [insDesc, if_neg hxy]
      refine List.Pairwise.cons ?_ (List.Pairwise.cons hy hys)
      intro z hz
      rcases List.mem_cons.mp hz with rfl | hz'
      · exact Nat.le_of_not_lt hxy
      · exact Nat.le_trans (hy z hz') (Nat.le_of_not_lt hxy)

theorem sortDesc_sorted (l : Counts) :
    List.Pairwise (fun a b => b.2 ≤ a.2) (sortDesc l) := by
  induction l with
  | nil => simp [sortDesc]
  | cons x xs ih => exact pairwise_insDesc x (sortDesc xs) ih

theorem filter_insDesc (x : Str × Nat) (s : Counts) (c : Nat) :
    (insDesc x s).filter (fun z => z.2 = c)
      = if x.2 = c then x :: s.filter (fun z => z.2 = c)
        else s.filter (fun z => z.2 = c) := by
  induction s with
  | nil =>
    by_cases hx : x.2 = c <;> simp [insDesc, List.filter, hx]
  | cons y ys ih =>
    by_cases hxy : x.2 < y.2
    · simp only [insDesc, if_pos hxy]
      by_cases hy : y.2 = c
      · have hx : ¬ x.2 = c := by omega
        simp [List.filter_cons, hy, hx, ih]
      · simp [List.filter_cons, hy, ih]
    · simp only [insDesc, if_neg hxy]
      by_cases hx : x.2 = c <;> simp [List.filter_cons, hx]

theorem sortDesc_stable (l : Counts) (c : Nat) :
    (sortDesc l).filter (fun z => z.2 = c) = l.filter (fun z => z.2 = c) := by
  induction l with
  | nil => rfl
  | cons x xs ih =>
    show (insDesc x (sortDesc xs)).filter _ = _
    rw [filter_insDesc]
    by_cases hx : x.2 = c <;> simp [List.filter_cons, hx, ih]

/-! ## Claim theorems (first batch) -/

/-- C1: the partition plan `[CHUNK_SIZE] * NUM_WORKERS` with
`CHUNK_SIZE = LOG_SIZE // NUM_WORKERS` does have `workerCount` non-negative
elements, but its sum is `workerCount * (totalCount / workerCount)`, which
undercounts the total when the division has a remainder: at
`totalCount = 5`, `workerCount = 2` the plan is `[2, 2]`, summing to 4, not
5.  This contradicts the claimed sum invariant (the spec itself flags the
truncating division as a bug to fix). -/
theorem chunk_sizes_undercount :
    chunk_sizes 5 2 = [2, 2] ∧ (chunk_sizes 5 2).length = 2 ∧
    (chunk_sizes 5 2).sum = 4 ∧ (chunk_sizes 5 2).sum ≠ 5 := by
  decide

/-- C2: for every run of the pipeline (each worker's generated lines folded
by `mapper_function`'s loop, the partial results folded by
`reducer_function` from the empty initial state), the total of the
status-code table equals the total of the source-address table, and both
equal the number of lines on which the pattern search succeeded; lines on
which the search fails are counted in neither table (the mapper's `if match`
simply skips them, so no exception is involved). -/
theorem pipeline_sum_invariant (lss : List (List Str)) :
    sumCounts (final_result (lss.map processLines)).codes
      = sumCounts (final_result (lss.map processLines)).ips ∧
    sumCounts (final_result (lss.map processLines)).codes
      = (lss.map (fun ls => ls.countP (fun l => (searchPattern l).isSome))).sum := by
  obtain ⟨h1, h2⟩ := final_result_sums (lss.map processLines)
  have hmap : ∀ f : PartialCounts → Nat,
      (f = fun p => sumCounts p.ips) ∨ (f = fun p => sumCounts p.codes) →
      ((lss.map processLines).map f).sum
        = (lss.map (fun ls => ls.countP (fun l => (searchPattern l).isSome))).sum := by
    intro f hf
    rw [List.map_map]
    congr 1
    apply List.map_congr_left
    intro ls _
    rcases hf with rfl | rfl
    · exact (processLines_sums ls).1
    · exact (processLines_sums ls).2
  rw [h1, h2]
  constructor
  · rw [hmap _ (Or.inr rfl), hmap _ (Or.inl rfl)]
  · rw [hmap _ (Or.inr rfl)]

/-- C4 (as stated, refuted): folding `reducer_function` over a permuted list
of partial results is NOT guaranteed to yield a bit-identical aggregate:
with two partial results holding the disjoint keys "a" and "b", the two
merge orders insert the keys into the accumulating dictionary in different
orders, so the resulting (insertion-ordered) dictionaries differ as
structures, even though every key holds the same count. -/
theorem final_result_order_sensitive :
    final_result [⟨[(['a'], 1)], []⟩, ⟨[(['b'], 1)], []⟩]
      ≠ final_result [⟨[(['b'], 1)], []⟩, ⟨[(['a'], 1)], []⟩] := by
  decide

/-- C4 (amended): folding `reducer_function` over any permutation of a fixed
list of partial results, starting from the all-empty accumulator, yields an
aggregate with exactly the same count for every key in both tables — the
aggregates are equal as key-to-count mappings, though the dictionaries'
insertion (iteration) orders may differ between permutations. -/
theorem final_result_perm_invariant (ps qs : List PartialCounts)
    (h : ps.Perm qs) (k : Str) :
    lookupD (final_result ps).ips k = lookupD (final_result qs).ips k ∧
    lookupD (final_result ps).codes k = lookupD (final_result qs).codes k := by
  obtain ⟨hp1, hp2⟩ := lookupD_final_result ps k
  obtain ⟨hq1, hq2⟩ := lookupD_final_result qs k
  constructor
  · rw [hp1, hq1]
    exact (h.map (fun p => valSum p.ips k)).sum_eq
  · rw [hp2, hq2]
    exact (h.map (fun p => valSum p.codes k)).sum_eq

/-- Witness for the amended C4 at a concrete permutation and key. -/
theorem final_result_perm_invariant_witness :
    lookupD (final_result [⟨[(['a'], 1)], []⟩, ⟨[(['b'], 2)], []⟩]).ips ['a']
      = lookupD (final_result [⟨[(['b'], 2)], []⟩, ⟨[(['a'], 1)], []⟩]).ips ['a'] ∧
    lookupD (final_result [⟨[(['a'], 1)], []⟩, ⟨[(['b'], 2)], []⟩]).codes ['a']
      = lookupD (final_result [⟨[(['b'], 2)], []⟩, ⟨[(['a'], 1)], []⟩]).codes ['a'] :=
  final_result_perm_invariant _ _ (List.Perm.swap _ _ _) ['a']

/-- C6: the reported error rate is the count stored for status token "500"
divided by the total of the status table, times 100 (rational arithmetic),
and it is exactly 0 when the total is 0 — the code branches on
`if total_requests` before dividing, so no division by zero is performed. -/
theorem error_rate_spec (r : PartialCounts) :
    error_rate r = ((error_500 r : ℚ) / (total_requests r : ℚ)) * 100 ∧
    (total_requests r = 0 → error_rate r = 0) := by
  constructor
  · by_cases h : total_requests r = 0
    · simp [error_rate, h]
    · simp [error_rate, h]
  · intro h
    simp [error_rate, h]

/-- Witness for C6 at the empty aggregate (the `totalCount = 0` scenario):
both tables empty, error rate exactly 0. -/
theorem error_rate_spec_witness : error_rate initial_state = 0 :=
  (error_rate_spec initial_state).2 rfl

/-- C9: the reporter's top-3 list is the first three entries of the
descending stable sort of the source-address table: the sort is a
permutation of the table, its counts are non-increasing, and entries with
equal counts keep the order in which they appear in the table's iteration
order (the filter on any fixed count is unchanged), which is exactly
"ties broken by first-encountered-in-iteration-order". -/
theorem top3_spec (l : Counts) :
    top3 l = (sortDesc l).take 3 ∧
    (sortDesc l).Perm l ∧
    List.Pairwise (fun a b => b.2 ≤ a.2) (sortDesc l) ∧
    ∀ c : Nat, (sortDesc l).filter (fun z => z.2 = c) = l.filter (fun z => z.2 = c) :=
  ⟨rfl, sortDesc_perm l, sortDesc_sorted l, fun c => sortDesc_stable l c⟩

/-- C10: a worker invoked with a record count of 0 runs its loop zero times
and returns the two empty tables (no error: the function is total). -/
theorem mapper_function_zero (draws : Nat → Draw) :
    mapper_function 0 draws = initial_state := rfl

/-! ## Character and digit-run lemmas for the pattern matcher -/

theorem digit_ne_newline (c : Char) (h : c.isDigit = true) : c ≠ '\n' := by
  rintro rfl
  exact absurd h (by decide)

theorem digit_ne_S (c : Char) (h : c.isDigit = true) : c ≠ 'S' := by
  rintro rfl
  exact absurd h (by decide)

theorem leadingDigits_append (ds : Str) (c : Char) (r : Str)
    (hd : ds.all Char.isDigit = true) (hc : c.isDigit = false) :
    leadingDigits (ds ++ c :: r) = ds.length := by
  induction ds with
  | nil => simp [leadingDigits, hc]
  | cons a as ih =>
    simp only [List.all_cons, Bool.and_eq_true] at hd
    simp [leadingDigits, hd.1, ih hd.2]

theorem leadingDigits_all (l : Str) (h : l.all Char.isDigit = true) :
    leadingDigits l = l.length := by
  induction l with
  | nil => rfl
  | cons a as ih =>
    simp only [List.all_cons, Bool.and_eq_true] at h
    simp [leadingDigits, h.1, ih h.2]

theorem matchOctetDot_append (ds : Str) (c : Char) (r : Str)
    (hd : ds.all Char.isDigit = true) (hc : c.isDigit = false) :
    matchOctetDot (ds ++ c :: r)
      = if 1 ≤ ds.length ∧ ds.length ≤ 3 ∧ c = '.' then some (ds, r) else none := by
  have hlen : leadingDigits (ds ++ c :: r) = ds.length := leadingDigits_append ds c r hd hc
  unfold matchOctetDot
  rw [hlen, List.drop_left]
  have hdrop : (ds ++ c :: r).drop (ds.length + 1) = r := by
    rw [← List.drop_drop, List.drop_left]
    rfl
  rw [hdrop, List.take_left]
  by_cases h1 : 1 ≤ ds.length ∧ ds.length ≤ 3
  · by_cases h2 : c = '.'
    · subst h2
      rw [if_pos ⟨h1.1, h1.2, rfl⟩, if_pos ⟨h1.1, h1.2, rfl⟩]
    · rw [if_neg, if_neg]
      · rintro ⟨-, -, h⟩
        exact h2 h
      · rintro ⟨-, -, h⟩
        exact h2 (by simpa using h)
  · rw [if_neg, if_neg]
    · rintro ⟨ha, hb, -⟩
      exact h1 ⟨ha, hb⟩
    · rintro ⟨ha, hb, -⟩
      exact h1 ⟨ha, hb⟩

theorem matchLastOctet_append (o : Str) (c : Char) (r : Str)
    (ho : o.all Char.isDigit = true) (hne : o ≠ []) (hlen : o.length ≤ 3)
    (hc : c.isDigit = false) :
    matchLastOctet (o ++ c :: r) = some (o, c :: r) := by
  have hld : leadingDigits (o ++ c :: r) = o.length := leadingDigits_append o c r ho hc
  have hone : 1 ≤ o.length := List.length_pos.mpr hne
  have hmin : min 3 o.length = o.length := Nat.min_eq_right hlen
  unfold matchLastOctet
  rw [hld, if_pos (by omega), hmin, List.take_left, List.drop_left]

theorem matchQuad_ip (o1 o2 o3 o4 : Str) (c : Char) (r : Str)
    (h1 : o1.all Char.isDigit = true) (h1n : o1 ≠ []) (h1l : o1.length ≤ 3)
    (h2 : o2.all Char.isDigit = true) (h2n : o2 ≠ []) (h2l : o2.length ≤ 3)
    (h3 : o3.all Char.isDigit = true) (h3n : o3 ≠ []) (h3l : o3.length ≤ 3)
    (h4 : o4.all Char.isDigit = true) (h4n : o4 ≠ []) (h4l : o4.length ≤ 3)
    (hc : c.isDigit = false) :
    matchQuad (o1 ++ '.' :: (o2 ++ '.' :: (o3 ++ '.' :: (o4 ++ c :: r))))
      = some (o1 ++ '.' :: (o2 ++ '.' :: (o3 ++ '.' :: o4)), c :: r) := by
  have e1 : 1 ≤ o1.length := List.length_pos.mpr h1n
  have e2 : 1 ≤ o2.length := List.length_pos.mpr h2n
  have e3 : 1 ≤ o3.length := List.length_pos.mpr h3n
  unfold matchQuad
  rw [matchOctetDot_append o1 '.' _ h1 (by decide), if_pos ⟨e1, h1l, rfl⟩]
  simp only [Option.some_bind]
  rw [matchOctetDot_append o2 '.' _ h2 (by decide), if_pos ⟨e2, h2l, rfl⟩]
  simp only [Option.some_bind]
  rw [matchOctetDot_append o3 '.' _ h3 (by decide), if_pos ⟨e3, h3l, rfl⟩]
  simp only [Option.some_bind]
  rw [matchLastOctet_append o4 c r h4 h4n h4l hc]
  simp only [Option.map_some']

/-! ## Lemmas about the STATUS marker and group 2 -/

theorem isPrefixOf_append_self (a b : Str) : a.isPrefixOf (a ++ b) = true := by
  induction a with
  | nil => cases b <;> rfl
  | cons c cs ih => simp [List.isPrefixOf, ih]

theorem isPrefixOf_no_overlap (a t r : Str)
    (h1 : t.isPrefixOf a = false) (h2 : a.isPrefixOf t = false) :
    a.isPrefixOf (t ++ r) = false := by
  induction a generalizing t with
  | nil => simp [List.isPrefixOf] at h2
  | cons x as ih =>
    cases t with
    | nil => simp [List.isPrefixOf] at h1
    | cons y ts =>
      by_cases hxy : x = y
      · subst hxy
        simp only [List.isPrefixOf, beq_self_eq_true, Bool.true_and] at h1 h2
        simp only [List.cons_append, List.isPrefixOf, beq_self_eq_true, Bool.true_and]
        exact ih ts h1 h2
      · have hb : (x == y) = false := beq_eq_false_iff_ne.mpr hxy
        simp [List.isPrefixOf, hb]

theorem statusAt_none_of_head_ne (c : Char) (r : Str) (h : c ≠ 'S') :
    statusAt (c :: r) = none := by
  have hb : ('S' == c) = false := beq_eq_false_iff_ne.mpr (fun e => h e.symm)
  have hp : statusMarker.isPrefixOf (c :: r) = false := by
    show List.isPrefixOf ('S' :: 'T' :: 'A' :: 'T' :: 'U' :: 'S' :: ':' :: []) (c :: r) = false
    simp [List.isPrefixOf, hb]
  simp [statusAt, hp]

theorem statusAt_marker (t : Str) (h : 1 ≤ leadingDigits t) :
    statusAt (statusMarker ++ t) = some (t.take (leadingDigits t)) := by
  have hp : statusMarker.isPrefixOf (statusMarker ++ t) = true := isPrefixOf_append_self _ _
  have hd : (statusMarker ++ t).drop 7 = t := by
    show (statusMarker ++ t).drop statusMarker.length = t
    exact List.drop_left _ _
  simp [statusAt, hp, hd, h]

theorem findLastStatus_cons (c : Char) (r : Str) (hc : c ≠ '\n') :
    findLastStatus (c :: r) = (findLastStatus r).orElse (fun _ => statusAt (c :: r)) := by
  simp only [findLastStatus, if_neg hc]

theorem findLastStatus_digits (l : Str) (h : l.all Char.isDigit = true) :
    findLastStatus l = none := by
  induction l with
  | nil => rfl
  | cons c r ih =>
    simp only [List.all_cons, Bool.and_eq_true] at h
    rw [findLastStatus_cons c r (digit_ne_newline c h.1), ih h.2]
    simp only [Option.orElse]
    exact statusAt_none_of_head_ne c r (digit_ne_S c h.1)

theorem findLastStatus_some_marker (t : Str) (hne : t ≠ []) (hd : t.all Char.isDigit = true) :
    findLastStatus (statusMarker ++ t) = some t := by
  have htail : findLastStatus t = none := findLastStatus_digits t hd
  have hld : 1 ≤ leadingDigits t := by
    rw [leadingDigits_all t hd]
    exact List.length_pos.mpr hne
  have hS : statusAt (statusMarker ++ t) = some t := by
    rw [statusAt_marker t hld, leadingDigits_all t hd, List.take_length]
  have h7 : findLastStatus (':' :: t) = none := by
    rw [findLastStatus_cons ':' t (by decide), htail]
    simp only [Option.orElse]
    exact statusAt_none_of_head_ne ':' t (by decide)
  have h6 : findLastStatus ('S' :: ':' :: t) = none := by
    rw [findLastStatus_cons 'S' _ (by decide), h7]
    simp only [Option.orElse]
    have hp : statusMarker.isPrefixOf ('S' :: ':' :: t) = false := rfl
    simp [statusAt, hp]
  have h5 : findLastStatus ('U' :: 'S' :: ':' :: t) = none := by
    rw [findLastStatus_cons 'U' _ (by decide), h6]
    simp only [Option.orElse]
    exact statusAt_none_of_head_ne 'U' _ (by decide)
  have h4 : findLastStatus ('T' :: 'U' :: 'S' :: ':' :: t) = none := by
    rw [findLastStatus_cons 'T' _ (by decide), h5]
    simp only [Option.orElse]
    exact statusAt_none_of_head_ne 'T' _ (by decide)
  have h3 : findLastStatus ('A' :: 'T' :: 'U' :: 'S' :: ':' :: t) = none := by
    rw [findLastStatus_cons 'A' _ (by decide), h4]
    simp only [Option.orElse]
    exact statusAt_none_of_head_ne 'A' _ (by decide)
  have h2 : findLastStatus ('T' :: 'A' :: 'T' :: 'U' :: 'S' :: ':' :: t) = none := by
    rw [findLastStatus_cons 'T' _ (by decide), h3]
    simp only [Option.orElse]
    exact statusAt_none_of_head_ne 'T' _ (by decide)
  show findLastStatus ('S' :: 'T' :: 'A' :: 'T' :: 'U' :: 'S' :: ':' :: t) = some t
  rw [findLastStatus_cons 'S' _ (by decide), h2]
  simp only [Option.orElse]
  exact hS

theorem findLastStatus_skip (p r : Str) (hnl : '\n' ∉ p)
    (hs : ∀ t, t <:+ p → t ≠ [] → statusAt (t ++ r) = none) :
    findLastStatus (p ++ r) = findLastStatus r := by
  induction p with
  | nil => rfl
  | cons c p' ih =>
    have hc : c ≠ '\n' := by
      rintro rfl
      exact hnl (List.mem_cons_self _ _)
    rw [List.cons_append, findLastStatus_cons c _ hc]
    rw [ih (fun hm => hnl (List.mem_cons_of_mem c hm))
      (fun t ht htne => hs t (ht.trans (List.suffix_cons c p')) htne)]
    have h0 : statusAt (c :: (p' ++ r)) = none := by
      have := hs (c :: p') (List.suffix_refl _) (by simp)
      rwa [List.cons_append] at this
    cases hfr : findLastStatus r with
    | none => simp [Option.orElse, h0]
    | some g => simp [Option.orElse]

/-- The part of the request literal before the STATUS marker. -/
def litPre : Str := " - REQUEST:GET /api/v1/data - ".toList

theorem litReq_decomp : litReq = litPre ++ statusMarker := by decide

theorem findLastStatus_litReq (code : Str) (hne : code ≠ []) (hd : code.all Char.isDigit = true) :
    findLastStatus (litReq ++ code) = some code := by
  rw [litReq_decomp, List.append_assoc]
  rw [findLastStatus_skip litPre (statusMarker ++ code) (by decide) ?hs]
  · exact findLastStatus_some_marker code hne hd
  case hs =>
    intro t ht htne
    have hmem : t ∈ litPre.tails := (List.mem_tails t litPre).mpr ht
    have hall : ∀ u ∈ litPre.tails,
        u = [] ∨ (u.isPrefixOf statusMarker = false ∧ statusMarker.isPrefixOf u = false) := by
      decide
    rcases hall t hmem with rfl | hf
    · exact absurd rfl htne
    have hp : statusMarker.isPrefixOf (t ++ (statusMarker ++ code)) = false :=
      isPrefixOf_no_overlap statusMarker t _ hf.1 hf.2
    simp [statusAt, hp]

/-! ## Failure lemmas for the quad and the anchored pattern -/

theorem patternAt_none_of_quad_none (s : Str) (h : matchQuad s = none) :
    patternAt s = none := by
  simp [patternAt, h]

theorem matchQuad_none_of_octet_none (s : Str) (h : matchOctetDot s = none) :
    matchQuad s = none := by
  simp [matchQuad, h]

theorem patternAt_none_of_nondigit (c : Char) (r : Str) (h : c.isDigit = false) :
    patternAt (c :: r) = none := by
  have h0 : leadingDigits (c :: r) = 0 := by simp [leadingDigits, h]
  apply patternAt_none_of_quad_none
  apply matchQuad_none_of_octet_none
  simp [matchOctetDot, h0]

theorem matchQuad_none_stop (ds : Str) (c : Char) (r : Str)
    (hd : ds.all Char.isDigit = true) (hc : c.isDigit = false) (hdot : c ≠ '.') :
    matchQuad (ds ++ c :: r) = none := by
  apply matchQuad_none_of_octet_none
  rw [matchOctetDot_append ds c r hd hc]
  rw [if_neg]
  rintro ⟨-, -, h⟩
  exact hdot h

theorem matchQuad_none_two (s f : Str) (c : Char) (r : Str)
    (hs : s.all Char.isDigit = true) (hf : f.all Char.isDigit = true)
    (hc : c.isDigit = false) (hdot : c ≠ '.') :
    matchQuad (s ++ '.' :: (f ++ c :: r)) = none := by
  unfold matchQuad
  rw [matchOctetDot_append s '.' _ hs (by decide)]
  by_cases h1 : 1 ≤ s.length ∧ s.length ≤ 3
  · rw [if_pos ⟨h1.1, h1.2, rfl⟩]
    simp only [Option.some_bind]
    rw [matchOctetDot_append f c r hf hc, if_neg]
    · simp
    · rintro ⟨-, -, h⟩
      exact hdot h
  · rw [if_neg]
    · simp
    · rintro ⟨ha, hb, -⟩
      exact h1 ⟨ha, hb⟩

/-! ## Suffix machinery for leftmost-match reasoning -/

theorem suffix_append_cases (t a b : Str) (h : t <:+ a ++ b) :
    t <:+ b ∨ ∃ s, s <:+ a ∧ s ≠ [] ∧ t = s ++ b := by
  obtain ⟨u, hu⟩ := h
  rcases List.append_eq_append_iff.mp hu with ⟨w, hw1, hw2⟩ | ⟨w, hw1, hw2⟩
  · cases w with
    | nil =>
      left
      rw [hw2]
      exact List.suffix_refl b
    | cons x xs =>
      right
      exact ⟨x :: xs, ⟨u, hw1.symm⟩, by simp, hw2⟩
  · left
    exact ⟨w, hw2.symm⟩

theorem all_digit_of_suffix (s l : Str) (h : s <:+ l) (ha : l.all Char.isDigit = true) :
    s.all Char.isDigit = true := by
  rw [List.all_eq_true] at ha ⊢
  exact fun x hx => ha x (h.subset hx)

theorem searchPattern_append (p rest : Str)
    (h : ∀ t, t <:+ p → t ≠ [] → patternAt (t ++ rest) = none) :
    searchPattern (p ++ rest) = searchPattern rest := by
  induction p with
  | nil => rfl
  | cons c p' ih =>
    rw [List.cons_append]
    show (patternAt (c :: (p' ++ rest))).orElse (fun _ => searchPattern (p' ++ rest))
      = searchPattern rest
    have h0 : patternAt (c :: (p' ++ rest)) = none := by
      have := h (c :: p') (List.suffix_refl _) (by simp)
      rwa [List.cons_append] at this
    rw [h0, ih (fun t ht htne => h t (ht.trans (List.suffix_cons c p')) htne)]
    simp [Option.orElse]

theorem searchPattern_of_patternAt (s : Str) (g : Str × Str) (hne : s ≠ [])
    (h : patternAt s = some g) : searchPattern s = some g := by
  cases s with
  | nil => exact absurd rfl hne
  | cons c r =>
    show (patternAt (c :: r)).orElse (fun _ => searchPattern r) = some g
    rw [h]
    rfl

/-! ## Decomposition of pool addresses into four octets -/

/-- Split a candidate address into its four dot-separated octets. -/
def dec4 (s : Str) : Option (Str × Str × Str × Str) :=
  match s.dropWhile Char.isDigit with
  | '.' :: r1 =>
    match r1.dropWhile Char.isDigit with
    | '.' :: r2 =>
      match r2.dropWhile Char.isDigit with
      | '.' :: r3 =>
        if r3.all Char.isDigit then
          some (s.takeWhile Char.isDigit, r1.takeWhile Char.isDigit,
            r2.takeWhile Char.isDigit, r3)
        else none
      | _ => none
    | _ => none
  | _ => none

/-- A valid octet: non-empty, at most three characters, all digits. -/
def okOct (o : Str) : Bool := !o.isEmpty && o.length ≤ 3 && o.all Char.isDigit

/-- Full shape check for an address: it decomposes into four valid octets
and reassembling them gives back the address. -/
def dec4ok (s : Str) : Bool :=
  match dec4 s with
  | some (a, b, c, d) =>
    okOct a && okOct b && okOct c && okOct d &&
      (s == a ++ '.' :: (b ++ '.' :: (c ++ '.' :: d)))
  | none => false

theorem dec4ok_spec (s : Str) (h : dec4ok s = true) :
    ∃ a b c d : Str, s = a ++ '.' :: (b ++ '.' :: (c ++ '.' :: d)) ∧
      (a.all Char.isDigit = true ∧ a ≠ [] ∧ a.length ≤ 3) ∧
      (b.all Char.isDigit = true ∧ b ≠ [] ∧ b.length ≤ 3) ∧
      (c.all Char.isDigit = true ∧ c ≠ [] ∧ c.length ≤ 3) ∧
      (d.all Char.isDigit = true ∧ d ≠ [] ∧ d.length ≤ 3) := by
  unfold dec4ok at h
  cases hd : dec4 s with
  | none => rw [hd] at h; exact absurd h (by simp)
  | some q =>
    obtain ⟨a, b, c, d⟩ := q
    rw [hd] at h
    simp only [okOct, Bool.and_eq_true, beq_iff_eq, Bool.not_eq_true',
      decide_eq_true_eq] at h
    obtain ⟨⟨⟨⟨ha, hb⟩, hc⟩, hdd⟩, hs⟩ := h
    exact ⟨a, b, c, d, hs,
      ⟨ha.2, List.isEmpty_eq_false.mp ha.1.1, ha.1.2⟩,
      ⟨hb.2, List.isEmpty_eq_false.mp hb.1.1, hb.1.2⟩,
      ⟨hc.2, List.isEmpty_eq_false.mp hc.1.1, hc.1.2⟩,
      ⟨hdd.2, List.isEmpty_eq_false.mp hdd.1.1, hdd.1.2⟩⟩

/-! ## The anchored pattern on a generated line -/

theorem patternAt_ip_litReq (o1 o2 o3 o4 code : Str)
    (h1 : o1.all Char.isDigit = true) (h1n : o1 ≠ []) (h1l : o1.length ≤ 3)
    (h2 : o2.all Char.isDigit = true) (h2n : o2 ≠ []) (h2l : o2.length ≤ 3)
    (h3 : o3.all Char.isDigit = true) (h3n : o3 ≠ []) (h3l : o3.length ≤ 3)
    (h4 : o4.all Char.isDigit = true) (h4n : o4 ≠ []) (h4l : o4.length ≤ 3)
    (hcne : code ≠ []) (hcd : code.all Char.isDigit = true) :
    patternAt ((o1 ++ '.' :: (o2 ++ '.' :: (o3 ++ '.' :: o4))) ++ (litReq ++ code))
      = some (o1 ++ '.' :: (o2 ++ '.' :: (o3 ++ '.' :: o4)), code) := by
  have hlr : litReq = ' ' :: ("- REQUEST:GET /api/v1/data - STATUS:".toList) := rfl
  have hsh : (o1 ++ '.' :: (o2 ++ '.' :: (o3 ++ '.' :: o4))) ++ (litReq ++ code)
      = o1 ++ '.' :: (o2 ++ '.' :: (o3 ++ '.' ::
          (o4 ++ ' ' :: ("- REQUEST:GET /api/v1/data - STATUS:".toList ++ code)))) := by
    rw [hlr]
    simp [List.append_assoc]
  rw [hsh]
  unfold patternAt
  rw [matchQuad_ip o1 o2 o3 o4 ' ' _ h1 h1n h1l h2 h2n h2l h3 h3n h3l h4 h4n h4l (by decide)]
  simp only [Option.some_bind]
  have hback : (' ' :: ("- REQUEST:GET /api/v1/data - STATUS:".toList ++ code))
      = litReq ++ code := by
    rw [hlr]
    rfl
  rw [hback, findLastStatus_litReq code hcne hcd]
  rfl

theorem prefix_fail (tsI tsF REST : Str)
    (hI : tsI.all Char.isDigit = true) (hF : tsF.all Char.isDigit = true) :
    ∀ t, t <:+ (tsI ++ '.' :: (tsF ++ litInfo)) → t ≠ [] → patternAt (t ++ REST) = none := by
  have hli : litInfo = ' ' :: ("- INFO - ".toList) := rfl
  intro t ht htne
  rcases suffix_append_cases t tsI ('.' :: (tsF ++ litInfo)) ht with hcase | ⟨s, hs, hsne, rfl⟩
  · rcases List.suffix_cons_iff.mp hcase with rfl | h2
    · rw [List.cons_append]
      exact patternAt_none_of_nondigit '.' _ (by decide)
    · rcases suffix_append_cases t tsF litInfo h2 with h3 | ⟨s, hs2, hsne2, rfl⟩
      · cases t with
        | nil => exact absurd rfl htne
        | cons c ts =>
          have hcmem : c ∈ litInfo := h3.subset (List.mem_cons_self c ts)
          have hcd : c.isDigit = false := by
            have hall : ∀ x ∈ litInfo, x.isDigit = false := by decide
            exact hall c hcmem
          rw [List.cons_append]
          exact patternAt_none_of_nondigit c _ hcd
      · have hsd : s.all Char.isDigit = true := all_digit_of_suffix s tsF hs2 hF
        have hsh : (s ++ litInfo) ++ REST = s ++ ' ' :: ("- INFO - ".toList ++ REST) := by
          rw [List.append_assoc, hli]
          rfl
        rw [hsh]
        exact patternAt_none_of_quad_none _
          (matchQuad_none_stop s ' ' _ hsd (by decide) (by decide))
  · have hsd : s.all Char.isDigit = true := all_digit_of_suffix s tsI hs hI
    have hsh : (s ++ '.' :: (tsF ++ litInfo)) ++ REST
        = s ++ '.' :: (tsF ++ (' ' :: ("- INFO - ".toList ++ REST))) := by
      rw [hli]
      simp [List.append_assoc]
    rw [hsh]
    exact patternAt_none_of_quad_none _
      (matchQuad_none_two s tsF ' ' _ hsd hF (by decide) (by decide))

/-- Helper: the pattern search on any line the generator can produce yields
exactly the embedded address and the embedded code's decimal text. -/
theorem search_generate_log_line (d : Draw) (h : GoodDraw d) :
    searchPattern (generate_log_line d) = some (d.ip, codeStr d.code) := by
  obtain ⟨hI, hIne, hF, hFlen, hip, hcode⟩ := h
  have hcs : codeStr d.code ≠ [] ∧ (codeStr d.code).all Char.isDigit = true := by
    have hall : ∀ c ∈ STATUS_CODES, codeStr c ≠ [] ∧ (codeStr c).all Char.isDigit = true := by
      decide
    exact hall d.code hcode
  have hdec : dec4ok d.ip = true := by
    have hall : weighted_ips.all dec4ok = true := by decide
    exact List.all_eq_true.mp hall d.ip hip
  obtain ⟨o1, o2, o3, o4, hipeq, ⟨h1, h1n, h1l⟩, ⟨h2, h2n, h2l⟩, ⟨h3, h3n, h3l⟩,
    ⟨h4, h4n, h4l⟩⟩ := dec4ok_spec d.ip hdec
  have hline : generate_log_line d
      = (d.tsInt ++ '.' :: (d.tsFrac ++ litInfo)) ++ (d.ip ++ (litReq ++ codeStr d.code)) := by
    unfold generate_log_line
    simp [List.append_assoc]
  rw [hline, searchPattern_append _ _ (prefix_fail d.tsInt d.tsFrac _ hI hF)]
  have hne : d.ip ++ (litReq ++ codeStr d.code) ≠ [] := by
    rw [hipeq]
    simp
  apply searchPattern_of_patternAt _ _ hne
  rw [hipeq]
  exact patternAt_ip_litReq o1 o2 o3 o4 (codeStr d.code)
    h1 h1n h1l h2 h2n h2l h3 h3n h3l h4 h4n h4l hcs.1 hcs.2

/-- C3: for every record the generator can produce (any timestamp of the
`:.6f` shape, any address from the weighted pool, any code from the status
pool), running the compiled pattern's search over the line succeeds, group 1
is exactly the embedded source address and group 2 is exactly the decimal
text of the embedded status code (generation followed by extraction
round-trips). -/
theorem generate_extract_roundtrip (d : Draw) (h : GoodDraw d) :
    searchPattern (generate_log_line d) = some (d.ip, codeStr d.code) :=
  search_generate_log_line d h

/-! ## Absence of the two tokens (error-handling behaviour of the extractor) -/

/-- Some position of the string starts a dotted-quad match. -/
def hasQuadTok : Str → Bool
  | [] => false
  | c :: r => (matchQuad (c :: r)).isSome || hasQuadTok r

/-- Some position of the string starts `STATUS:` followed by a digit. -/
def hasStatusTok : Str → Bool
  | [] => false
  | c :: r => (statusAt (c :: r)).isSome || hasStatusTok r

theorem matchOctetDot_rest_suffix (s o r : Str) (h : matchOctetDot s = some (o, r)) :
    r <:+ s := by
  unfold matchOctetDot at h
  split at h
  · rw [Option.some.injEq, Prod.mk.injEq] at h
    rw [← h.2]
    exact List.drop_suffix _ _
  · exact absurd h (by simp)

theorem matchLastOctet_rest_suffix (s o r : Str) (h : matchLastOctet s = some (o, r)) :
    r <:+ s := by
  unfold matchLastOctet at h
  split at h
  · rw [Option.some.injEq, Prod.mk.injEq] at h
    rw [← h.2]
    exact List.drop_suffix _ _
  · exact absurd h (by simp)

theorem matchQuad_rest_suffix (s ip r : Str) (h : matchQuad s = some (ip, r)) : r <:+ s := by
  unfold matchQuad at h
  cases h1 : matchOctetDot s with
  | none => rw [h1] at h; simp at h
  | some p1 =>
    rw [h1] at h
    simp only [Option.some_bind] at h
    cases h2 : matchOctetDot p1.2 with
    | none => rw [h2] at h; simp at h
    | some p2 =>
      rw [h2] at h
      simp only [Option.some_bind] at h
      cases h3 : matchOctetDot p2.2 with
      | none => rw [h3] at h; simp at h
      | some p3 =>
        rw [h3] at h
        simp only [Option.some_bind] at h
        cases h4 : matchLastOctet p3.2 with
        | none => rw [h4] at h; simp at h
        | some p4 =>
          rw [h4] at h
          simp only [Option.map_some', Option.some.injEq, Prod.mk.injEq] at h
          rw [← h.2]
          exact ((((matchLastOctet_rest_suffix p3.2 p4.1 p4.2 h4).trans
            (matchOctetDot_rest_suffix p2.2 p3.1 p3.2 h3)).trans
            (matchOctetDot_rest_suffix p1.2 p2.1 p2.2 h2)).trans
            (matchOctetDot_rest_suffix s p1.1 p1.2 h1))

theorem findLastStatus_tok (r : Str) (h : (findLastStatus r).isSome = true) :
    hasStatusTok r = true := by
  induction r with
  | nil => simp [findLastStatus] at h
  | cons c rest ih =>
    by_cases hc : c = '\n'
    · simp only [findLastStatus, if_pos hc] at h
      simp [hasStatusTok, h]
    · rw [findLastStatus_cons c rest hc] at h
      cases hf : findLastStatus rest with
      | some g2 => simp [hasStatusTok, ih (by rw [hf]; rfl)]
      | none =>
        rw [hf] at h
        simp only [Option.orElse] at h
        simp [hasStatusTok, h]

theorem hasStatusTok_suffix (r s : Str) (hsuf : r <:+ s) (h : hasStatusTok r = true) :
    hasStatusTok s = true := by
  induction s with
  | nil =>
    rw [List.suffix_nil] at hsuf
    subst hsuf
    simp [hasStatusTok] at h
  | cons c s' ih =>
    rcases List.suffix_cons_iff.mp hsuf with rfl | h2
    · exact h
    · simp [hasStatusTok, ih h2]

theorem searchPattern_some_toks (s : Str) (g : Str × Str) (h : searchPattern s = some g) :
    hasQuadTok s = true ∧ hasStatusTok s = true := by
  induction s with
  | nil => simp [searchPattern] at h
  | cons c r ih =>
    cases hp : patternAt (c :: r) with
    | some g2 =>
      unfold patternAt at hp
      cases hq : matchQuad (c :: r) with
      | none => rw [hq] at hp; simp at hp
      | some p =>
        rw [hq] at hp
        simp only [Option.some_bind] at hp
        cases hf : findLastStatus p.2 with
        | none => rw [hf] at hp; simp at hp
        | some code =>
          constructor
          · simp [hasQuadTok, hq]
          · have hsub : p.2 <:+ c :: r := matchQuad_rest_suffix _ p.1 p.2 hq
            have htok : hasStatusTok p.2 = true := findLastStatus_tok p.2 (by rw [hf]; rfl)
            exact hasStatusTok_suffix p.2 (c :: r) hsub htok
    | none =>
      have hs : searchPattern r = some g := by
        have hrec : searchPattern (c :: r)
            = (patternAt (c :: r)).orElse (fun _ => searchPattern r) := rfl
        rw [hrec, hp] at h
        simpa [Option.orElse] using h
      obtain ⟨hq, ht⟩ := ih hs
      constructor
      · simp [hasQuadTok, hq]
      · simp [hasStatusTok, ht]

/-- C5: the pattern search reports absence (None, not an exception — all the
embedded functions are total) on the empty string, on any string that
nowhere contains the `STATUS:` marker followed by a digit (in particular a
string holding a valid dotted-quad address but no marker), and on any string
that nowhere contains a dotted-quad-shaped token (in particular a string
holding a marker with digits but no address). -/
theorem extractor_no_match :
    searchPattern [] = none ∧
    (∀ s : Str, hasStatusTok s = false → searchPattern s = none) ∧
    (∀ s : Str, hasQuadTok s = false → searchPattern s = none) := by
  refine ⟨rfl, ?_, ?_⟩
  · intro s hs
    cases hsp : searchPattern s with
    | none => rfl
    | some g =>
      have := (searchPattern_some_toks s g hsp).2
      rw [hs] at this
      exact absurd this (by decide)
  · intro s hs
    cases hsp : searchPattern s with
    | none => rfl
    | some g =>
      have := (searchPattern_some_toks s g hsp).1
      rw [hs] at this
      exact absurd this (by decide)

/-- Witness for C5 on the two non-trivial inputs: a line with a valid
address but no status marker, and a line with a marker and digits but no
valid address. -/
theorem extractor_no_match_witness :
    searchPattern ("192.168.1.1 - GET /index".toList) = none ∧
    searchPattern ("oops STATUS:500".toList) = none :=
  ⟨extractor_no_match.2.1 _ (by decide), extractor_no_match.2.2 _ (by decide)⟩

/-! ## Per-worker theorems built on the round trip -/

/-- C7: for every chunk size and every stream of draws the generator can
produce, every generated line matches the pattern (no extraction miss), so
the worker's two local tables each sum to exactly the chunk size. -/
theorem mapper_function_matches_all (n : Nat) (draws : Nat → Draw)
    (h : ∀ i, i < n → GoodDraw (draws i)) :
    (∀ i, i < n → (searchPattern (generate_log_line (draws i))).isSome = true) ∧
    sumCounts (mapper_function n draws).ips = n ∧
    sumCounts (mapper_function n draws).codes = n := by
  have hmatch : ∀ i, i < n → (searchPattern (generate_log_line (draws i))).isSome = true := by
    intro i hi
    rw [search_generate_log_line (draws i) (h i hi)]
    rfl
  have hcnt : (((List.range n).map draws).map generate_log_line).countP
      (fun l => (searchPattern l).isSome) = n := by
    have hall : ∀ a ∈ ((List.range n).map draws).map generate_log_line,
        (fun l => (searchPattern l).isSome) a = true := by
      intro a ha
      simp only [List.mem_map] at ha
      obtain ⟨d, hd, rfl⟩ := ha
      obtain ⟨i, hi, rfl⟩ := hd
      exact hmatch i (List.mem_range.mp hi)
    rw [List.countP_eq_length.mpr hall]
    simp
  obtain ⟨hips, hcodes⟩ := processLines_sums (((List.range n).map draws).map generate_log_line)
  exact ⟨hmatch, by rw [mapper_function, hips, hcnt], by rw [mapper_function, hcodes, hcnt]⟩

/-- Witness for C7 at chunk size 2 with a constant good draw. -/
theorem mapper_function_matches_all_witness :
    sumCounts (mapper_function 2
      (fun _ => ⟨"17".toList, "123456".toList, "10.0.0.1".toList, 200⟩)).ips = 2 ∧
    sumCounts (mapper_function 2
      (fun _ => ⟨"17".toList, "123456".toList, "10.0.0.1".toList, 200⟩)).codes = 2 :=
  ⟨(mapper_function_matches_all 2 _ (fun i hi => by decide)).2.1,
   (mapper_function_matches_all 2 _ (fun i hi => by decide)).2.2⟩

theorem foldl_mapStep_lookup (ds : List Draw) (acc : PartialCounts)
    (h : ∀ d ∈ ds, GoodDraw d) (s : Str) :
    lookupD ((ds.map generate_log_line).foldl mapStep acc).codes s
      = lookupD acc.codes s + ds.countP (fun d => codeStr d.code = s) := by
  induction ds generalizing acc with
  | nil => simp
  | cons d rest ih =>
    have hd : GoodDraw d := h d (List.mem_cons_self _ _)
    have hstep : mapStep acc (generate_log_line d)
        = ⟨updAdd acc.ips d.ip 1, updAdd acc.codes (codeStr d.code) 1⟩ := by
      simp [mapStep, search_generate_log_line d hd]
    rw [List.map_cons, List.foldl_cons, hstep,
      ih _ (fun x hx => h x (List.mem_cons_of_mem d hx)), List.countP_cons]
    show lookupD (updAdd acc.codes (codeStr d.code) 1) s + _ = _
    rw [lookupD_updAdd]
    by_cases hcs : codeStr d.code = s
    · simp [hcs]
      omega
    · simp [hcs]

/-- C8: status codes are carried as their literal decimal text: the worker's
status table is keyed by the code's text token, so looking any text token up
(in particular the reporter's `.get('500', 0)`, embedded as `error_500`)
returns exactly the number of generated records whose code prints as that
token. -/
theorem mapper_function_code_text (n : Nat) (draws : Nat → Draw) (s : Str)
    (h : ∀ i, i < n → GoodDraw (draws i)) :
    lookupD (mapper_function n draws).codes s
      = ((List.range n).map draws).countP (fun d => codeStr d.code = s) ∧
    error_500 (mapper_function n draws)
      = ((List.range n).map draws).countP (fun d => codeStr d.code = "500".toList) := by
  have hgen : ∀ d ∈ (List.range n).map draws, GoodDraw d := by
    intro d hd
    obtain ⟨i, hi, rfl⟩ := List.mem_map.mp hd
    exact h i (List.mem_range.mp hi)
  constructor
  · have hx := foldl_mapStep_lookup ((List.range n).map draws) ⟨[], []⟩ hgen s
    simpa [mapper_function, processLines, lookupD] using hx
  · have hx := foldl_mapStep_lookup ((List.range n).map draws) ⟨[], []⟩ hgen ("500".toList)
    simpa [mapper_function, processLines, error_500, lookupD] using hx

/-- Witness for C8: two draws with codes 500 and 200; the "500" lookup
returns 1. -/
theorem mapper_function_code_text_witness :
    lookupD (mapper_function 2
        (fun i => ⟨"17".toList, "123456".toList, "10.0.0.1".toList, if i = 0 then 500 else 200⟩)).codes
        ("500".toList)
      = ((List.range 2).map
          (fun i => ⟨"17".toList, "123456".toList, "10.0.0.1".toList, if i = 0 then 500 else 200⟩ : Nat → Draw)).countP
          (fun d => codeStr d.code = "500".toList) :=
  (mapper_function_code_text 2 _ ("500".toList) (fun i hi => by
    by_cases h0 : i = 0 <;> simp [h0] <;> decide)).1

/-- Witness for C3 at a concrete draw. -/
theorem generate_extract_roundtrip_witness :
    GoodDraw ⟨"1760227200".toList, "123456".toList, "10.0.0.1".toList, 500⟩ ∧
    searchPattern (generate_log_line
        ⟨"1760227200".toList, "123456".toList, "10.0.0.1".toList, 500⟩)
      = some ("10.0.0.1".toList, codeStr 500) :=
  ⟨by decide, generate_extract_roundtrip _ (by decide)⟩
